import Mathlib

/-!
Shallow embedding of the symtern interning library core
(`src/basic.rs`, `src/adaptors/inline.rs`, `src/adaptors/luma.rs`)
with machine-checked statements of its specified properties.

Values are generic (`α`); strings handled by the inline adaptor are
modelled as lists of byte values (`List Nat`, each element `< 256`).
Symbol ids are modelled as `Nat` together with an explicit maximum
representable value `M` for the chosen id type (`I::max_value()` in the
source).  The embedding follows the `debug_assertions` build: pools and
symbols carry a pool-identity tag, and `resolve` performs the
`check_matching_pool!` identity check, which panics on mismatch.  The
release build's `resolve` (the check compiled out) is modelled
separately as `resolveRelease`.
-/

namespace Symtern

/-- Error kinds from `src/error.rs` (`ErrorKind`). -/
inductive ErrorKind where
  | PoolOverflow : ErrorKind
  | NoSuchSymbol : ErrorKind
deriving DecidableEq, Repr

/-- Symbol produced by the basic pool (`make_sym!`-generated `Sym<I>` in
`src/basic.rs`, debug-assertions variant): a raw id plus the identity of
the pool that created it. -/
structure Sym where
  id : Nat
  pool_id : Nat
deriving DecidableEq, Repr

/-- The basic hash-based interner `Pool<T, I>` from `src/basic.rs`
(debug-assertions variant): `ids_map` maps a content hash to an assigned
id (`HashMap<u64, I>`, modelled as an association list where lookup
takes the first matching binding), `lookup_vec` is the append-only value
table, and `pool_id` is the process-unique pool identity. -/
structure Pool (α : Type) where
  ids_map : List (Nat × Nat)
  lookup_vec : List α
  pool_id : Nat
deriving DecidableEq, Repr

/-- Lookup, `HashMap::get`: first binding with the given key, if any. -/
def mapGet (m : List (Nat × Nat)) (k : Nat) : Option Nat :=
  (m.find? (fun kv => kv.1 == k)).map (fun kv => kv.2)

/-- A fresh, empty pool with the given identity (`Pool::new`). -/
def emptyPool (α : Type) (pid : Nat) : Pool α :=
  { ids_map := [], lookup_vec := [], pool_id := pid }

/-- Length, `Len::len`, for the basic pool: the number of stored entries. -/
def Pool.len {α : Type} (p : Pool α) : Nat :=
  p.lookup_vec.length

/-- Fullness check `Len::is_full` for the basic pool, for id type with maximum
representable value `M`: `len >= 1 && len - 1 >= I::max_value()`. -/
def Pool.is_full {α : Type} (p : Pool α) (M : Nat) : Bool :=
  decide (1 ≤ p.len) && decide (M ≤ p.len - 1)

/-- Result of `intern`: `Result<Sym, Error>` in the source. -/
inductive InternResult where
  | ok : Sym → InternResult
  | err : ErrorKind → InternResult
deriving DecidableEq, Repr

/-- Interning, `Intern::intern`, for the basic pool (`src/basic.rs`): hash the value
with the pool's hash function `h`; if the hash is already mapped, return
a symbol wrapping the existing id; else fail with `PoolOverflow` when
full; else append the value, assign id `lookup_vec.len() - 1`, record
the mapping and return a symbol for the new id.  The source mutates the
pool in place; here the (possibly unchanged) pool is returned alongside
the result. -/
def intern {α : Type} (h : α → Nat) (M : Nat) (p : Pool α) (v : α) :
    InternResult × Pool α :=
  let key := h v
  match mapGet p.ids_map key with
  | some i => (.ok ⟨i, p.pool_id⟩, p)
  | none =>
    if p.is_full M then
      (.err .PoolOverflow, p)
    else
      let vec' := p.lookup_vec ++ [v]
      let i := vec'.length - 1
      (.ok ⟨i, p.pool_id⟩,
       { p with lookup_vec := vec', ids_map := (key, i) :: p.ids_map })

/-- Outcome of `resolve`: a found value, a recoverable error, or the
fatal `check_matching_pool!` panic (debug builds). -/
inductive ResolveResult (α : Type) where
  | ok : α → ResolveResult α
  | err : ErrorKind → ResolveResult α
  | panicked : ResolveResult α
deriving DecidableEq, Repr

/-- Resolution, `Resolve::resolve`, for the basic pool, debug-assertions build: the
`check_matching_pool!` identity check panics on a pool-identity
mismatch; otherwise the id indexes `lookup_vec` when in bounds, and a
too-large id yields `NoSuchSymbol`. -/
def resolve {α : Type} (p : Pool α) (s : Sym) : ResolveResult α :=
  if s.pool_id ≠ p.pool_id then .panicked
  else
    match p.lookup_vec[s.id]? with
    | some v => .ok v
    | none => .err .NoSuchSymbol

/-- Resolution for the basic pool as compiled without
debug assertions: `check_matching_pool!` expands to nothing, so only the
bounds check remains. -/
def resolveRelease {α : Type} (p : Pool α) (s : Sym) : ResolveResult α :=
  match p.lookup_vec[s.id]? with
  | some v => .ok v
  | none => .err .NoSuchSymbol

/-- Iterate `intern` of the same value `n` times, keeping the pool. -/
def internIter {α : Type} (h : α → Nat) (M : Nat) (p : Pool α) (v : α) :
    Nat → Pool α
  | 0 => p
  | n + 1 => (intern h M (internIter h M p v n) v).2

/-- Intern each value of a list in order, keeping the pool. -/
def internAll {α : Type} (h : α → Nat) (M : Nat) (p : Pool α)
    (vs : List α) : Pool α :=
  vs.foldl (fun q v => (intern h M q v).2) p

/-!
The packed-inline adaptor (`src/adaptors/inline.rs`).  The `Pack` trait
is implemented (via `impl_pack!`) for the `N`-byte unsigned integers
`u16`, `u32`, `u64` (`N` = 2, 4, 8); the embedding keeps the byte width
`N` as an explicit parameter and models an id value as a `Nat` below
`2^(8*N)`.  The `target_endian = "little"` variants are modelled: the
`mem::transmute` between `uN` and `[u8; N]` is the little-endian byte
decomposition.
-/

/-- Maximum representable value of the `N`-byte unsigned id type
(`I::max_value()`). -/
def maxValue (N : Nat) : Nat := 2 ^ (8 * N) - 1

/-- The mask `Pack::msb_mask` for the most significant bit of an `N`-byte
unsigned integer, `(1 as $T) << ($N * 8 - 1)`. -/
def msb_mask (N : Nat) : Nat := 2 ^ (8 * N - 1)

/-- Little-endian byte decomposition of `v` into `N` bytes: the
`mem::transmute::<$T, [u8; $N]>` used by `get_packed_ref` on a
little-endian target. -/
def toBytesLE : Nat → Nat → List Nat
  | 0, _ => []
  | n + 1, v => v % 256 :: toBytesLE n (v / 256)

/-- Little-endian recomposition of a byte list into an integer: the
`mem::transmute::<[u8; $N], $T>` used by `pack` on a little-endian
target. -/
def fromBytesLE : List Nat → Nat
  | [] => 0
  | b :: bs => b + 256 * fromBytesLE bs

/-- The byte array built by `Pack::pack` (little-endian target) for an
`N`-byte id type: `None` if `s.len() >= N`; otherwise bytes `0..L` hold
the string's bytes, byte `N - 1` holds `s.len() as u8 | 0x80`, and the
bytes in between stay zero. -/
def pack (N : Nat) (s : List Nat) : Option (List Nat) :=
  if N ≤ s.length then none
  else some (s ++ List.replicate (N - 1 - s.length) 0 ++ [s.length % 256 ||| 128])

/-- Packing `Pack::pack` as an id value: the packed byte array transmuted to the
`N`-byte integer (little-endian). -/
def packId (N : Nat) (s : List Nat) : Option Nat :=
  (pack N s).map fromBytesLE

/-- The tag check `Pack::is_inlined`: `*self >= Self::msb_mask()`. -/
def is_inlined (N : Nat) (v : Nat) : Bool :=
  decide (msb_mask N ≤ v)

/-- Unpacking, `Pack::get_packed_ref` (little-endian target): if the value is
inline-tagged, read the length from the tag byte `bytes[N - 1]` with the
tag bit stripped (`& !0x80`), and return the first `len` bytes. -/
def get_packed_ref (N : Nat) (v : Nat) : Option (List Nat) :=
  if is_inlined N v then
    some ((toBytesLE N v).take ((toBytesLE N v).getD (N - 1) 0 &&& 127))
  else none

/-- The `Inline<W>` adaptor over a basic string pool whose id type is
`N` bytes wide (`Inline<Pool<str, uN>>`).  Strings are byte lists. -/
structure Inline where
  wrapped : Pool (List Nat)
deriving DecidableEq, Repr

/-- Fullness check `Len::is_full` for `Inline`:
`wrapped.len() >= msb_mask().to_usize()`. -/
def Inline.is_full (q : Inline) (N : Nat) : Bool :=
  decide (msb_mask N ≤ q.wrapped.len)

/-- Interning, `Intern::intern`, for `Inline` (`src/adaptors/inline.rs`): try to
pack the string into the id; on success wrap the packed id in a symbol
without touching the wrapped pool; otherwise fail fast with
`PoolOverflow` when the adaptor's halved capacity is reached, else
delegate to the wrapped pool's `intern` (whose own `is_full` uses the
id type's full maximum `maxValue N`). -/
def inlineIntern (h : List Nat → Nat) (N : Nat) (q : Inline)
    (s : List Nat) : InternResult × Inline :=
  match packId N s with
  | some i => (.ok ⟨i, q.wrapped.pool_id⟩, q)
  | none =>
    if q.is_full N then
      (.err .PoolOverflow, q)
    else
      match intern h (maxValue N) q.wrapped s with
      | (r, w') => (r, ⟨w'⟩)

/-- Resolution, `Resolve::resolve`, for `Inline`: if the symbol's id carries an
inlined string, return it directly from the symbol's own bits;
otherwise delegate to the wrapped pool's `resolve`. -/
def inlineResolve (N : Nat) (q : Inline) (s : Sym) :
    ResolveResult (List Nat) :=
  match get_packed_ref N s.id with
  | some str => .ok str
  | none => resolve q.wrapped s

/-!
The `Luma` interior-mutability adaptor (`src/adaptors/luma.rs`) wraps a
pool in a `RefCell`.  Per the standard library's `RefCell` semantics,
`borrow_mut` panics while any `Ref` from `borrow` is alive; the model
tracks the number of live `Ref`s returned by `resolve` in
`read_borrows`.
-/

/-- The adaptor `Luma<W>` over a basic pool: the wrapped pool plus the number of
live read borrows (`Ref`s) handed out by `resolve`. -/
structure Luma (α : Type) where
  wrapped : Pool α
  read_borrows : Nat
deriving DecidableEq, Repr

/-- Outcome of a `Luma` operation: a panic models both the
`RefCell::borrow_mut` failure and the `.unwrap()` on the inner
`resolve` result. -/
inductive LumaInternResult where
  | ok : Sym → LumaInternResult
  | err : ErrorKind → LumaInternResult
  | panicked : LumaInternResult
deriving DecidableEq, Repr

/-- Interning, `Intern::intern`, for `Luma`: `self.wrapped.borrow_mut().intern(input)`.
`borrow_mut` panics if any read borrow is still alive; the wrapped pool
is untouched in that case.  Otherwise the write borrow lasts only for
the call, and the inner `intern` runs. -/
def lumaIntern {α : Type} (h : α → Nat) (M : Nat) (q : Luma α) (v : α) :
    LumaInternResult × Luma α :=
  if 0 < q.read_borrows then
    (.panicked, q)
  else
    match intern h M q.wrapped v with
    | (.ok s, w') => (.ok s, { q with wrapped := w' })
    | (.err e, w') => (.err e, { q with wrapped := w' })

/-- Resolution, `Resolve::resolve`, for `Luma`:
`Ok(Ref::map(self.wrapped.borrow(), |w| w.resolve(sym).unwrap()))`.
A successful resolution hands out a `Ref` that stays alive (one more
read borrow); a failing inner `resolve` panics via `.unwrap()`. -/
def lumaResolve {α : Type} (q : Luma α) (s : Sym) :
    ResolveResult α × Luma α :=
  match resolve q.wrapped s with
  | .ok v => (.ok v, { q with read_borrows := q.read_borrows + 1 })
  | _ => (.panicked, q)

/-- The hash-to-id index is consistent with the value table: every
id recorded in `ids_map` points at a stored entry whose hash is the
recorded key (the invariant stated for the pool's data model). -/
def Pool.wf {α : Type} (h : α → Nat) (p : Pool α) : Prop :=
  ∀ k i, mapGet p.ids_map k = some i →
    ∃ hi : i < p.lookup_vec.length, h (p.lookup_vec.get ⟨i, hi⟩) = k

/-! ### Helper lemmas -/

theorem mapGet_nil (k : Nat) : mapGet [] k = none := rfl

theorem mapGet_cons (k' i k : Nat) (m : List (Nat × Nat)) :
    mapGet ((k', i) :: m) k = if k' = k then some i else mapGet m k := by
  unfold mapGet
  by_cases hk : k' = k
  · rw [List.find?_cons_of_pos _ (by simpa using hk)]
    simp [hk]
  · rw [List.find?_cons_of_neg _ (by simpa using hk)]
    simp [hk]

theorem is_full_iff {α : Type} (p : Pool α) (M : Nat) :
    p.is_full M = true ↔ M + 1 ≤ p.len := by
  simp only [Pool.is_full, Bool.and_eq_true, decide_eq_true_eq]
  omega

theorem is_full_eq_false {α : Type} (p : Pool α) (M : Nat)
    (h : p.len ≤ M) : p.is_full M = false := by
  rw [Bool.eq_false_iff]
  intro hful
  have := (is_full_iff p M).1 hful
  omega

theorem intern_hit {α : Type} (h : α → Nat) (M : Nat) (p : Pool α)
    (v : α) (i : Nat) (hm : mapGet p.ids_map (h v) = some i) :
    intern h M p v = (.ok ⟨i, p.pool_id⟩, p) := by
  simp [intern, hm]

theorem intern_miss {α : Type} (h : α → Nat) (M : Nat) (p : Pool α)
    (v : α) (hm : mapGet p.ids_map (h v) = none)
    (hful : p.is_full M = false) :
    intern h M p v =
      (.ok ⟨p.len, p.pool_id⟩,
       { p with lookup_vec := p.lookup_vec ++ [v],
                ids_map := (h v, p.len) :: p.ids_map }) := by
  have hlen : (p.lookup_vec ++ [v]).length - 1 = p.len := by
    simp [Pool.len]
  simp [intern, hm, hful, hlen, Pool.len]

theorem intern_full {α : Type} (h : α → Nat) (M : Nat) (p : Pool α)
    (v : α) (hm : mapGet p.ids_map (h v) = none)
    (hful : p.is_full M = true) :
    intern h M p v = (.err .PoolOverflow, p) := by
  simp [intern, hm, hful]

theorem intern_pool_id {α : Type} (h : α → Nat) (M : Nat) (p : Pool α)
    (v : α) : (intern h M p v).2.pool_id = p.pool_id := by
  cases hm : mapGet p.ids_map (h v) with
  | none =>
    cases hful : p.is_full M with
    | false => rw [intern_miss h M p v hm hful]
    | true => rw [intern_full h M p v hm hful]
  | some i => rw [intern_hit h M p v i hm]

theorem intern_sym_pool_id {α : Type} (h : α → Nat) (M : Nat)
    (p p' : Pool α) (v : α) (s : Sym)
    (hok : intern h M p v = (.ok s, p')) : s.pool_id = p.pool_id := by
  cases hm : mapGet p.ids_map (h v) with
  | some i =>
    rw [intern_hit h M p v i hm] at hok
    cases hok
    rfl
  | none =>
    cases hful : p.is_full M with
    | false =>
      rw [intern_miss h M p v hm hful] at hok
      cases hok
      rfl
    | true =>
      rw [intern_full h M p v hm hful] at hok
      cases hok

theorem intern_len_le {α : Type} (h : α → Nat) (M : Nat) (p : Pool α)
    (v : α) : (intern h M p v).2.len ≤ p.len + 1 := by
  cases hm : mapGet p.ids_map (h v) with
  | some i => rw [intern_hit h M p v i hm]; exact Nat.le_succ _
  | none =>
    cases hful : p.is_full M with
    | false =>
      rw [intern_miss h M p v hm hful]
      simp [Pool.len]
    | true => rw [intern_full h M p v hm hful]; exact Nat.le_succ _

/-! ### C1: intern/resolve round trip on the basic pool -/

/-- C1: for every value `v` successfully interned in a base table pool
yielding symbol `s`, resolving `s` on the resulting pool returns `Ok`
of a value equal to `v`.  The pool's index is assumed consistent
(`Pool.wf`) and, per the spec's hashing policy, the stored values are
assumed free of hash collisions with `v`. -/
theorem intern_resolve_roundtrip {α : Type} (h : α → Nat) (M : Nat)
    (p p' : Pool α) (v : α) (s : Sym)
    (hwf : p.wf h)
    (hcol : ∀ w ∈ p.lookup_vec, h w = h v → w = v)
    (hok : intern h M p v = (.ok s, p')) :
    resolve p' s = .ok v := by
  cases hm : mapGet p.ids_map (h v) with
  | some i =>
    obtain ⟨hi, hhash⟩ := hwf (h v) i hm
    have hv : p.lookup_vec.get ⟨i, hi⟩ = v :=
      hcol _ (p.lookup_vec.get_mem i hi) hhash
    rw [intern_hit h M p v i hm] at hok
    cases hok
    simp [resolve, List.getElem?_eq_getElem hi]
    simpa [List.get_eq_getElem] using hv
  | none =>
    cases hful : p.is_full M with
    | false =>
      rw [intern_miss h M p v hm hful] at hok
      cases hok
      simp [resolve, Pool.len, List.getElem?_concat_length]
    | true =>
      rw [intern_full h M p v hm hful] at hok
      cases hok

/-- Witness for C1 at a concrete input: interning `3` into an empty
pool with identity hash and `u8`-sized id space, then resolving. -/
theorem intern_resolve_roundtrip_witness :
    resolve (intern id 255 (emptyPool Nat 0) 3).2
      ⟨0, 0⟩ = .ok 3 := by
  have h := intern_resolve_roundtrip id 255 (emptyPool Nat 0)
    (intern id 255 (emptyPool Nat 0) 3).2 3 ⟨0, 0⟩
    (by intro k i hk; cases hk)
    (by intro w hw; cases hw)
    (by decide)
  exact h

/-! ### C2: dedup idempotence and the length bound -/

/-- C2: once `intern(v)` has succeeded with symbol `s1`, interning `v`
again on the resulting pool yields the very same symbol and leaves the
pool unchanged, and no matter how many times `v` is interned starting
from the original pool, `len()` grows by at most one. -/
theorem intern_idempotent {α : Type} (h : α → Nat) (M : Nat)
    (p p1 : Pool α) (v : α) (s1 : Sym)
    (h1 : intern h M p v = (.ok s1, p1)) :
    intern h M p1 v = (.ok s1, p1) ∧
      ∀ n, (internIter h M p v n).len ≤ p.len + 1 := by
  constructor
  · cases hm : mapGet p.ids_map (h v) with
    | some i =>
      rw [intern_hit h M p v i hm] at h1
      cases h1
      exact intern_hit h M p v i hm
    | none =>
      cases hful : p.is_full M with
      | false =>
        rw [intern_miss h M p v hm hful] at h1
        cases h1
        have hm1 : mapGet ((h v, p.len) :: p.ids_map) (h v) = some p.len := by
          rw [mapGet_cons]
          simp
        exact intern_hit h M _ v p.len hm1
      | true =>
        rw [intern_full h M p v hm hful] at h1
        cases h1
  · have inv : ∀ n, internIter h M p v n = p ∨
        ((internIter h M p v n).len ≤ p.len + 1 ∧
         ∃ i, mapGet (internIter h M p v n).ids_map (h v) = some i) := by
      intro n
      induction n with
      | zero => exact Or.inl rfl
      | succ n ih =>
        cases ih with
        | inl hp =>
          show _ ∨ _
          rw [internIter, hp]
          cases hm : mapGet p.ids_map (h v) with
          | some i =>
            rw [intern_hit h M p v i hm]
            exact Or.inl rfl
          | none =>
            cases hful : p.is_full M with
            | false =>
              rw [intern_miss h M p v hm hful]
              refine Or.inr ⟨by simp [Pool.len], p.len, ?_⟩
              rw [mapGet_cons]
              simp
            | true =>
              rw [intern_full h M p v hm hful]
              exact Or.inl rfl
        | inr hh =>
          obtain ⟨hlen, i, hm⟩ := hh
          show _ ∨ _
          rw [internIter, intern_hit h M _ v i hm]
          exact Or.inr ⟨hlen, i, hm⟩
    intro n
    cases inv n with
    | inl hp => rw [hp]; omega
    | inr hh => exact hh.1

/-- Witness for C2 at a concrete input: interning `3` twice into an
empty pool, and iterating it five times. -/
theorem intern_idempotent_witness :
    intern id 255 (intern id 255 (emptyPool Nat 0) 3).2 3 =
      (.ok ⟨0, 0⟩, (intern id 255 (emptyPool Nat 0) 3).2) ∧
    (internIter id 255 (emptyPool Nat 0) 3 5).len ≤
      (emptyPool Nat 0).len + 1 := by
  have h := intern_idempotent id 255 (emptyPool Nat 0)
    (intern id 255 (emptyPool Nat 0) 3).2 3 ⟨0, 0⟩ (by decide)
  exact ⟨h.1, h.2 5⟩

/-! ### C3: the overflow boundary of the basic pool -/

theorem internAll_fresh {α : Type} (h : α → Nat) (M : Nat) :
    ∀ (vs : List α) (p : Pool α),
      (vs.map h).Nodup →
      (∀ v ∈ vs, mapGet p.ids_map (h v) = none) →
      p.len + vs.length ≤ M + 1 →
      (internAll h M p vs).len = p.len + vs.length ∧
      (internAll h M p vs).pool_id = p.pool_id ∧
      ∀ k, mapGet (internAll h M p vs).ids_map k = none ↔
        (mapGet p.ids_map k = none ∧ k ∉ vs.map h) := by
  intro vs
  induction vs with
  | nil =>
    intro p _ _ _
    refine ⟨by simp [internAll], by simp [internAll], ?_⟩
    intro k
    simp [internAll]
  | cons v vs ih =>
    intro p hnd hfresh hle
    have hmv : mapGet p.ids_map (h v) = none := hfresh v (by simp)
    have hlen0 : (v :: vs).length = vs.length + 1 := by simp
    have hful : p.is_full M = false := by
      apply is_full_eq_false
      rw [hlen0] at hle
      omega
    have hnd2 : (vs.map h).Nodup := by
      simp only [List.map_cons, List.nodup_cons] at hnd
      exact hnd.2
    have hvnotin : h v ∉ vs.map h := by
      simp only [List.map_cons, List.nodup_cons] at hnd
      exact hnd.1
    have hstep : internAll h M p (v :: vs) =
        internAll h M
          { p with lookup_vec := p.lookup_vec ++ [v],
                   ids_map := (h v, p.len) :: p.ids_map } vs := by
      simp only [internAll, List.foldl_cons]
      rw [intern_miss h M p v hmv hful]
    have hfresh2 : ∀ w ∈ vs,
        mapGet ((h v, p.len) :: p.ids_map) (h w) = none := by
      intro w hw
      have hne : ¬ (h v = h w) := by
        intro he
        exact hvnotin (he ▸ List.mem_map_of_mem h hw)
      rw [mapGet_cons, if_neg hne]
      exact hfresh w (List.mem_cons_of_mem v hw)
    have hle2 : ({ p with lookup_vec := p.lookup_vec ++ [v],
                          ids_map := (h v, p.len) :: p.ids_map } : Pool α).len
        + vs.length ≤ M + 1 := by
      show (p.lookup_vec ++ [v]).length + vs.length ≤ M + 1
      rw [hlen0] at hle
      unfold Pool.len at hle
      simp only [List.length_append, List.length_cons, List.length_nil]
      omega
    obtain ⟨hl, hpid, hiff⟩ := ih
      { p with lookup_vec := p.lookup_vec ++ [v],
               ids_map := (h v, p.len) :: p.ids_map }
      hnd2 hfresh2 hle2
    rw [hstep]
    refine ⟨?_, ?_, ?_⟩
    · rw [hl]
      show (p.lookup_vec ++ [v]).length + vs.length = p.len + (v :: vs).length
      unfold Pool.len
      simp only [List.length_append, List.length_cons, List.length_nil]
      omega
    · rw [hpid]
    · intro k
      rw [hiff k]
      show (mapGet ((h v, p.len) :: p.ids_map) k = none ∧ k ∉ vs.map h) ↔ _
      rw [mapGet_cons]
      by_cases hkv : h v = k
      · rw [if_pos hkv]
        simp [← hkv]
      · rw [if_neg hkv]
        have hkv2 : ¬ (k = h v) := fun he => hkv he.symm
        constructor
        · rintro ⟨h1, h2⟩
          refine ⟨h1, ?_⟩
          rw [List.map_cons, List.mem_cons]
          push_neg
          exact ⟨hkv2, h2⟩
        · rintro ⟨h1, h2⟩
          rw [List.map_cons, List.mem_cons] at h2
          push_neg at h2
          exact ⟨h1, h2.2⟩

/-- C3: with id-type maximum `M`, after interning `M + 1` values with
pairwise distinct hashes into a fresh pool, the pool reports
`is_full`; interning a further value with a fresh hash returns
`PoolOverflow`; re-interning any of the stored values still succeeds
and leaves the pool unchanged. -/
theorem overflow_boundary {α : Type} (h : α → Nat) (M : Nat)
    (vs : List α) (pid : Nat) (w : α)
    (hnd : (vs.map h).Nodup)
    (hlen : vs.length = M + 1)
    (hw : h w ∉ vs.map h) :
    (internAll h M (emptyPool α pid) vs).is_full M = true ∧
    (intern h M (internAll h M (emptyPool α pid) vs) w).1 =
      .err .PoolOverflow ∧
    ∀ v ∈ vs, ∃ s, intern h M (internAll h M (emptyPool α pid) vs) v =
      (.ok s, internAll h M (emptyPool α pid) vs) := by
  obtain ⟨hl, _, hiff⟩ := internAll_fresh h M vs (emptyPool α pid) hnd
    (by intro v _; rfl) (by simp [Pool.len, emptyPool, hlen])
  set q := internAll h M (emptyPool α pid) vs with hq
  have hqlen : q.len = M + 1 := by
    rw [hl, hlen]
    simp [Pool.len, emptyPool]
  have hqful : q.is_full M = true := (is_full_iff q M).2 (by omega)
  refine ⟨hqful, ?_, ?_⟩
  · have hfresh : mapGet q.ids_map (h w) = none :=
      (hiff (h w)).2 ⟨rfl, hw⟩
    rw [intern_full h M q w hfresh hqful]
  · intro v hv
    have hhit : mapGet q.ids_map (h v) ≠ none := by
      intro hnone
      exact ((hiff (h v)).1 hnone).2 (List.mem_map_of_mem h hv)
    cases hm : mapGet q.ids_map (h v) with
    | none => exact absurd hm hhit
    | some i => exact ⟨⟨i, q.pool_id⟩, intern_hit h M q v i hm⟩

/-- Witness for C3 at a concrete input: a pool whose id type has
maximum value `1` (two representable ids), filled with the two values
`10` and `20`. -/
theorem overflow_boundary_witness :
    (internAll id 1 (emptyPool Nat 0) [10, 20]).is_full 1 = true ∧
    (intern id 1 (internAll id 1 (emptyPool Nat 0) [10, 20]) 30).1 =
      .err .PoolOverflow ∧
    ∃ s, intern id 1 (internAll id 1 (emptyPool Nat 0) [10, 20]) 10 =
      (.ok s, internAll id 1 (emptyPool Nat 0) [10, 20]) := by
  have h := overflow_boundary id 1 [10, 20] 0 30
    (by decide) (by decide) (by decide)
  exact ⟨h.1, h.2.1, h.2.2 10 (by decide)⟩

/-! ### C8: cross-pool resolution -/

/-- C8 counterexample: in a release build (`resolveRelease`, the
identity check compiled out), a symbol obtained by interning `100` on
pool `p1` resolves on the unrelated pool `p2` — whose only entry is
`200` and whose sole id happens to be numerically valid — to
`Ok 200`, a silently returned unrelated value rather than
`NoSuchSymbol` or a fatal check. -/
theorem cross_pool_release_counterexample :
    intern id 255 (emptyPool Nat 0) 100 =
      (.ok ⟨0, 0⟩, ⟨[(100, 0)], [100], 0⟩) ∧
    resolveRelease (⟨[(200, 1)], [200], 1⟩ : Pool Nat) ⟨0, 0⟩ =
      .ok 200 ∧
    (200 : Nat) ≠ 100 := by
  refine ⟨by decide, by decide, by decide⟩

/-- C8 amended: in debug builds, resolving a symbol interned on `p1`
against any pool with a different pool identity always triggers the
fatal `check_matching_pool!` panic, so no value of the foreign pool is
ever returned; release builds omit the check and can silently return an
unrelated in-bounds entry (see the counterexample). -/
theorem cross_pool_debug_panics {α : Type} (h : α → Nat) (M : Nat)
    (p1 p1' p2 : Pool α) (v : α) (s : Sym)
    (hok : intern h M p1 v = (.ok s, p1'))
    (hne : p1.pool_id ≠ p2.pool_id) :
    resolve p2 s = .panicked := by
  have hs : s.pool_id = p1.pool_id := intern_sym_pool_id h M p1 p1' v s hok
  unfold resolve
  rw [if_pos]
  rw [hs]
  exact hne

/-- Witness for the amended C8 at a concrete input: pools with
identities `0` and `1`. -/
theorem cross_pool_debug_panics_witness :
    resolve (emptyPool Nat 1) ⟨0, 0⟩ = .panicked := by
  exact cross_pool_debug_panics id 255 (emptyPool Nat 0)
    (intern id 255 (emptyPool Nat 0) 100).2 (emptyPool Nat 1) 100 ⟨0, 0⟩
    (by decide) (by decide)

/-! ### C9: the Luma adaptor panics on intern with a live borrow -/

/-- C9: after a `resolve` call on the `Luma` adaptor whose returned
borrow is still alive, any `intern` attempt is a runtime panic
(`RefCell::borrow_mut` fails), and the adaptor — in particular the
wrapped pool — is left exactly as it was. -/
theorem luma_intern_live_borrow_panics {α : Type} (h : α → Nat)
    (M : Nat) (q q' : Luma α) (s : Sym) (v w : α)
    (hres : lumaResolve q s = (.ok v, q')) :
    lumaIntern h M q' w = (.panicked, q') := by
  have hb : 0 < q'.read_borrows := by
    unfold lumaResolve at hres
    cases hr : resolve q.wrapped s with
    | ok u => rw [hr] at hres; cases hres; simp
    | err e => rw [hr] at hres; cases hres
    | panicked => rw [hr] at hres; cases hres
  unfold lumaIntern
  rw [if_pos hb]

/-- Witness for C9 at a concrete input: resolve the single entry of a
one-entry `Luma` pool, then attempt an intern while the borrow lives. -/
theorem luma_intern_live_borrow_panics_witness :
    lumaIntern id 255
      (lumaResolve (Luma.mk ⟨[(3, 0)], [3], 0⟩ 0) ⟨0, 0⟩).2 4 =
    (.panicked, (lumaResolve (Luma.mk ⟨[(3, 0)], [3], 0⟩ 0) ⟨0, 0⟩).2) := by
  exact luma_intern_live_borrow_panics id 255
    (Luma.mk ⟨[(3, 0)], [3], 0⟩ 0)
    (lumaResolve (Luma.mk ⟨[(3, 0)], [3], 0⟩ 0) ⟨0, 0⟩).2
    ⟨0, 0⟩ 3 4 (by decide)

/-! ### C10: a failed intern leaves the pool untouched -/

theorem intern_err_frame {α : Type} (h : α → Nat) (M : Nat)
    (p : Pool α) (v : α) (e : ErrorKind)
    (hbase : (intern h M p v).1 = .err e) :
    (intern h M p v).2 = p := by
  cases hm : mapGet p.ids_map (h v) with
  | some i => rw [intern_hit h M p v i hm]
  | none =>
    cases hful : p.is_full M with
    | false =>
      rw [intern_miss h M p v hm hful] at hbase
      cases hbase
    | true => rw [intern_full h M p v hm hful]

/-- C10: whenever `intern` — on the basic pool or through the inline
adaptor — returns an error (`PoolOverflow` is the only kind it
produces), the pool is returned exactly as it was: same `len()`, same
stored entries, same hash-to-id index. -/
theorem intern_error_frame {α : Type} (h : α → Nat) (M : Nat)
    (p : Pool α) (v : α) (e : ErrorKind)
    (hi : List Nat → Nat) (N : Nat) (q : Inline) (str : List Nat)
    (e2 : ErrorKind)
    (hbase : (intern h M p v).1 = .err e)
    (hinl : (inlineIntern hi N q str).1 = .err e2) :
    (intern h M p v).2 = p ∧ (inlineIntern hi N q str).2 = q := by
  refine ⟨intern_err_frame h M p v e hbase, ?_⟩
  unfold inlineIntern at hinl ⊢
  cases hp : packId N str with
  | some i => simp [hp] at hinl
  | none =>
    simp only [hp] at hinl ⊢
    cases hful : q.is_full N with
    | true => simp [hful]
    | false =>
      simp only [hful, Bool.false_eq_true, if_false] at hinl ⊢
      rcases hint : intern hi (maxValue N) q.wrapped str with ⟨r, w2⟩
      simp only [hint] at hinl ⊢
      cases r with
      | ok s2 => simp at hinl
      | err ee =>
        have h1 : (intern hi (maxValue N) q.wrapped str).1 = .err ee := by
          rw [hint]
        have hw : (intern hi (maxValue N) q.wrapped str).2 = q.wrapped :=
          intern_err_frame hi (maxValue N) q.wrapped str ee h1
        rw [hint] at hw
        show Inline.mk w2 = q
        simp only [Prod.snd] at hw
        rw [hw]

/-! ### Byte-level lemmas for the packing algorithm -/

theorem toBytes_fromBytes : ∀ (bs : List Nat), (∀ b ∈ bs, b < 256) →
    toBytesLE bs.length (fromBytesLE bs) = bs := by
  intro bs
  induction bs with
  | nil => intro _; rfl
  | cons b bs ih =>
    intro hb
    have hblt : b < 256 := hb b (by simp)
    have h1 : (b + 256 * fromBytesLE bs) % 256 = b := by omega
    have h2 : (b + 256 * fromBytesLE bs) / 256 = fromBytesLE bs := by omega
    show toBytesLE (bs.length + 1) (fromBytesLE (b :: bs)) = b :: bs
    rw [show fromBytesLE (b :: bs) = b + 256 * fromBytesLE bs from rfl]
    rw [toBytesLE, h1, h2, ih (fun x hx => hb x (by simp [hx]))]

theorem fromBytesLE_concat : ∀ (xs : List Nat) (t : Nat),
    fromBytesLE (xs ++ [t]) = fromBytesLE xs + 256 ^ xs.length * t := by
  intro xs
  induction xs with
  | nil => intro t; simp [fromBytesLE]
  | cons b xs ih =>
    intro t
    show b + 256 * fromBytesLE (xs ++ [t]) = _
    rw [ih t]
    show _ = b + 256 * fromBytesLE xs + 256 ^ (xs.length + 1) * t
    rw [pow_succ]
    ring

theorem tag_byte_eq (L : Nat) (hL : L < 8) : L % 256 ||| 128 = 128 + L := by
  interval_cases L <;> decide

theorem tag_byte_and (L : Nat) (hL : L < 8) : (128 + L) &&& 127 = L := by
  interval_cases L <;> decide

theorem pow256_128 (N : Nat) (hN : 1 ≤ N) :
    256 ^ (N - 1) * 128 = msb_mask N := by
  have h256 : (256 : Nat) ^ (N - 1) = 2 ^ (8 * (N - 1)) := by
    rw [pow_mul]
    norm_num
  rw [h256, msb_mask]
  rw [show (128 : Nat) = 2 ^ 7 from rfl, ← pow_add]
  congr 1
  omega

theorem pack_some (N : Nat) (s : List Nat) (hl : s.length < N) :
    pack N s = some (s ++ List.replicate (N - 1 - s.length) 0 ++
      [s.length % 256 ||| 128]) := by
  unfold pack
  rw [if_neg (by omega)]

theorem pack_length (N : Nat) (s : List Nat) (hl : s.length < N) :
    (s ++ List.replicate (N - 1 - s.length) 0 ++
      [s.length % 256 ||| 128]).length = N := by
  simp
  omega

/-- The packed value is at least the most-significant-bit mask, i.e. it
passes the `is_inlined` test. -/
theorem packId_ge_mask (N : Nat) (s : List Nat) (h1 : 1 ≤ N)
    (h8 : N ≤ 8) (hl : s.length < N) (v : Nat)
    (hv : packId N s = some v) : msb_mask N ≤ v := by
  rw [packId, pack_some N s hl] at hv
  simp at hv
  rw [← hv, ← List.append_assoc, fromBytesLE_concat]
  have hpre : (s ++ List.replicate (N - 1 - s.length) 0).length
      = N - 1 := by
    simp
    omega
  rw [hpre, tag_byte_eq s.length (by omega)]
  have hge : 256 ^ (N - 1) * 128 ≤ 256 ^ (N - 1) * (128 + s.length) :=
    Nat.mul_le_mul_left _ (by omega)
  rw [pow256_128 N h1] at hge
  omega

/-- Full little-endian pack/unpack round trip: a string of valid bytes
shorter than the id width packs to a value that `get_packed_ref`
recovers exactly. -/
theorem packId_roundtrip (N : Nat) (s : List Nat) (h1 : 1 ≤ N)
    (h8 : N ≤ 8) (hl : s.length < N) (hb : ∀ b ∈ s, b < 256) :
    ∃ v, packId N s = some v ∧ msb_mask N ≤ v ∧
      get_packed_ref N v = some s := by
  have hpack : packId N s = some (fromBytesLE (s ++
      List.replicate (N - 1 - s.length) 0 ++ [s.length % 256 ||| 128])) := by
    rw [packId, pack_some N s hl]
    rfl
  refine ⟨_, hpack, packId_ge_mask N s h1 h8 hl _ hpack, ?_⟩
  have htag : s.length % 256 ||| 128 = 128 + s.length :=
    tag_byte_eq s.length (by omega)
  have hblt : ∀ b ∈ (s ++ List.replicate (N - 1 - s.length) 0 ++
      [s.length % 256 ||| 128]), b < 256 := by
    intro b hbmem
    simp at hbmem
    rcases hbmem with hbmem | hbmem | hbmem
    · exact hb b hbmem
    · omega
    · rw [hbmem, htag]
      omega
  have hlen : (s ++ List.replicate (N - 1 - s.length) 0 ++
      [s.length % 256 ||| 128]).length = N := pack_length N s hl
  have hbytes : toBytesLE N (fromBytesLE (s ++
      List.replicate (N - 1 - s.length) 0 ++ [s.length % 256 ||| 128])) =
      s ++ List.replicate (N - 1 - s.length) 0 ++
        [s.length % 256 ||| 128] := by
    have hrt := toBytes_fromBytes _ hblt
    rw [hlen] at hrt
    exact hrt
  have hmask := packId_ge_mask N s h1 h8 hl _ hpack
  have hpre : (s ++ List.replicate (N - 1 - s.length) 0).length
      = N - 1 := by
    simp
    omega
  have hgetD : (s ++ List.replicate (N - 1 - s.length) 0 ++
      [s.length % 256 ||| 128]).getD (N - 1) 0 = 128 + s.length := by
    rw [List.getD_append_right _ _ _ _ hpre.le, hpre, Nat.sub_self]
    simp [htag]
  unfold get_packed_ref
  rw [if_pos (show is_inlined N _ = true by simpa [is_inlined] using hmask)]
  rw [hbytes, hgetD, tag_byte_and s.length (by omega)]
  rw [List.append_assoc, List.take_left]

/-! ### C4: the inline packing layout -/
/-! ### C4: the inline packing layout -/

/-- C4 counterexample: packing the one-byte string `[97]` into a
two-byte (`u16`) id puts `129 = 1 | 0x80` in the designated tag byte —
the length with the byte's top bit set — not `(1 << 1) | 1 = 3` as the
claim's formula states. -/
theorem pack_tag_byte_counterexample :
    pack 2 [97] = some [97, 129] ∧
    ((129 : Nat) = 1 <<< 1 ||| 1) = False := by
  refine ⟨by decide, by simp⟩

/-- C4 amended: for an `N`-byte id type and a string of length
`L < N`, the packed byte array has the designated tag byte (byte
`N - 1`) equal to `L | 0x80 = 128 + L` — the length with the most
significant bit set as the inline tag — while bytes `0..L` hold the raw
string bytes and the remaining bytes up to `N - 1` are zero padding. -/
theorem pack_layout (N : Nat) (s : List Nat) (h1 : 1 ≤ N) (h8 : N ≤ 8)
    (hl : s.length < N) :
    ∃ bs, pack N s = some bs ∧ bs.length = N ∧
      bs.getD (N - 1) 0 = 128 + s.length ∧
      bs.take s.length = s ∧
      ∀ i, s.length ≤ i → i < N - 1 → bs.getD i 0 = 0 := by
  have hpre : (s ++ List.replicate (N - 1 - s.length) 0).length
      = N - 1 := by
    simp
    omega
  refine ⟨_, pack_some N s hl, pack_length N s hl, ?_, ?_, ?_⟩
  · rw [List.getD_append_right _ _ _ _ hpre.le, hpre, Nat.sub_self]
    simp [tag_byte_eq s.length (by omega)]
  · rw [List.append_assoc, List.take_left]
  · intro i hi1 hi2
    rw [List.getD_append _ _ _ _ (by rw [hpre]; exact hi2)]
    rw [List.getD_append_right _ _ _ _ hi1]
    rw [List.getD_eq_getElem _ _ (by simp; omega)]
    simp

/-- Witness for the amended C4 at a concrete input: packing the
one-byte string `[97]` into a two-byte (`u16`) id. -/
theorem pack_layout_witness :
    ∃ bs, pack 2 [97] = some bs ∧ bs.length = 2 ∧
      bs.getD 1 0 = 128 + [97].length ∧
      bs.take [97].length = [97] ∧
      ∀ i, [97].length ≤ i → i < 1 → bs.getD i 0 = 0 := by
  exact pack_layout 2 [97] (by decide) (by decide) (by decide)

/-! ### C6: inline transparency -/

/-- C6: for the packed-inline adaptor over an `N`-byte id type, any
string of valid bytes shorter than `N` bytes is interned by inlining:
the adaptor is returned unchanged (in particular the wrapped pool's
`len()` is unchanged), and the produced symbol resolves to the original
string on any `Inline` pool whatsoever — the wrapped pool is never
consulted. -/
theorem inline_transparency (h : List Nat → Nat) (N : Nat) (q : Inline)
    (s : List Nat) (h1 : 1 ≤ N) (h8 : N ≤ 8) (hl : s.length < N)
    (hb : ∀ b ∈ s, b < 256) :
    ∃ sym, inlineIntern h N q s = (.ok sym, q) ∧
      ∀ q2 : Inline, inlineResolve N q2 sym = .ok s := by
  obtain ⟨v, hpack, hmask, hget⟩ := packId_roundtrip N s h1 h8 hl hb
  refine ⟨⟨v, q.wrapped.pool_id⟩, ?_, ?_⟩
  · unfold inlineIntern
    rw [hpack]
  · intro q2
    unfold inlineResolve
    rw [hget]

/-- Witness for C6 at a concrete input: the one-byte string `[97]` over
a `u16`-id pool, resolved against a different, empty pool. -/
theorem inline_transparency_witness :
    (∃ sym, inlineIntern fromBytesLE 2
        (Inline.mk (emptyPool (List Nat) 0)) [97] =
          (.ok sym, Inline.mk (emptyPool (List Nat) 0)) ∧
      ∀ q2 : Inline, inlineResolve 2 q2 sym = .ok [97]) := by
  exact inline_transparency fromBytesLE 2
    (Inline.mk (emptyPool (List Nat) 0)) [97]
    (by decide) (by decide) (by decide) (by decide)

/-! ### C7: the u64 inline boundary -/

/-- C7: over `u64` ids (`N = 8` bytes), every string shorter than 7
bytes is inlined in the symbol — the intern returns with the adaptor
(and hence the wrapped pool) unchanged and an inline-tagged id — and
only strings of length at least 7 can ever occupy a wrapped-pool slot
(any intern that changes the adaptor's state was given a string of
length at least 7). -/
theorem inline_u64_boundary (h : List Nat → Nat) (q : Inline)
    (s : List Nat) :
    (s.length < 7 → ∃ sym, inlineIntern h 8 q s = (.ok sym, q) ∧
      msb_mask 8 ≤ sym.id) ∧
    ((inlineIntern h 8 q s).2 ≠ q → 7 ≤ s.length) := by
  have hinl : s.length < 8 → inlineIntern h 8 q s =
      (.ok ⟨fromBytesLE (s ++ List.replicate (8 - 1 - s.length) 0 ++
        [s.length % 256 ||| 128]), q.wrapped.pool_id⟩, q) ∧
      packId 8 s = some (fromBytesLE (s ++
        List.replicate (8 - 1 - s.length) 0 ++
        [s.length % 256 ||| 128])) := by
    intro hl8
    have hsome : packId 8 s = some (fromBytesLE (s ++
        List.replicate (8 - 1 - s.length) 0 ++
        [s.length % 256 ||| 128])) := by
      rw [packId, pack_some 8 s hl8]
      rfl
    constructor
    · unfold inlineIntern
      rw [hsome]
    · exact hsome
  constructor
  · intro hlt
    obtain ⟨hstep, hsome⟩ := hinl (by omega)
    refine ⟨_, hstep, ?_⟩
    exact packId_ge_mask 8 s (by omega) (by omega) (by omega) _ hsome
  · intro hne
    by_contra hge
    push_neg at hge
    obtain ⟨hstep, -⟩ := hinl (by omega)
    exact hne (by rw [hstep])

/-- Witness for C7 at a concrete input: the six-byte string
`[1, 2, 3, 4, 5, 6]` over a `u64`-id pool. -/
theorem inline_u64_boundary_witness :
    ∃ sym, inlineIntern fromBytesLE 8
        (Inline.mk (emptyPool (List Nat) 0)) [1, 2, 3, 4, 5, 6] =
          (.ok sym, Inline.mk (emptyPool (List Nat) 0)) ∧
      msb_mask 8 ≤ sym.id := by
  exact (inline_u64_boundary fromBytesLE
    (Inline.mk (emptyPool (List Nat) 0)) [1, 2, 3, 4, 5, 6]).1 (by decide)

/-! ### C5: the inline capacity threshold -/

/-- C5 counterexample: for `u16` ids (`M = maxValue 2 = 65535`), an
inline adaptor whose wrapped pool holds exactly `M / 2 = 32767` entries
does *not* yet report `is_full()` — the code's threshold is the
most-significant-bit mask `32768 = (M + 1) / 2`, one more than the
claim's `M / 2`. -/
theorem inline_is_full_half_counterexample :
    (Inline.mk ⟨[], List.replicate (maxValue 2 / 2) [], 0⟩).wrapped.len
      = maxValue 2 / 2 ∧
    (Inline.mk ⟨[], List.replicate (maxValue 2 / 2) [], 0⟩).is_full 2
      = false := by
  constructor
  · show (List.replicate (maxValue 2 / 2) ([] : List Nat)).length
      = maxValue 2 / 2
    simp
  · unfold Inline.is_full Pool.len
    simp only [List.length_replicate]
    decide

/-- C5 amended: the inline adaptor over an `N`-byte id type with
maximum value `M = maxValue N` reports `is_full()` exactly when the
wrapped pool's `len()` reaches `(M + 1) / 2` (the most-significant-bit
mask, i.e. one more than `M / 2`), and the threshold is indeed
independent of inlined values: interning any inlinable string leaves
`is_full()` unchanged. -/
theorem inline_is_full_iff (N : Nat) (hN : 1 ≤ N) (q : Inline) :
    (q.is_full N = true ↔ (maxValue N + 1) / 2 ≤ q.wrapped.len) ∧
    ∀ (h : List Nat → Nat) (s : List Nat), s.length < N →
      ((inlineIntern h N q s).2).is_full N = q.is_full N := by
  have hmv : (maxValue N + 1) / 2 = msb_mask N := by
    unfold maxValue msb_mask
    have h1 : (1 : Nat) ≤ 2 ^ (8 * N) := Nat.one_le_two_pow
    rw [Nat.sub_add_cancel h1]
    have h2 : 8 * N = (8 * N - 1) + 1 := by omega
    nth_rewrite 1 [h2]
    rw [pow_succ]
    omega
  constructor
  · rw [hmv]
    unfold Inline.is_full
    simp
  · intro h s hl
    have hsome : packId N s = some (fromBytesLE (s ++
        List.replicate (N - 1 - s.length) 0 ++
        [s.length % 256 ||| 128])) := by
      rw [packId, pack_some N s hl]
      rfl
    unfold inlineIntern
    rw [hsome]

/-- Witness for the amended C5 at a concrete input: an empty
`u16`-id inline pool. -/
theorem inline_is_full_iff_witness :
    (Inline.mk (emptyPool (List Nat) 0)).is_full 2 = true ↔
      (maxValue 2 + 1) / 2 ≤
        (Inline.mk (emptyPool (List Nat) 0)).wrapped.len := by
  exact (inline_is_full_iff 2 (by decide)
    (Inline.mk (emptyPool (List Nat) 0))).1

/-- Witness for C10 at a concrete input: a full single-entry pool with
id-type maximum `0`, and a full `u16` inline adaptor (wrapped pool at
the `32768`-entry mask), each given a fresh value. -/
theorem intern_error_frame_witness :
    (intern id 0 (⟨[(0, 0)], [0], 0⟩ : Pool Nat) 1).2 =
      (⟨[(0, 0)], [0], 0⟩ : Pool Nat) ∧
    (inlineIntern fromBytesLE 2
      (Inline.mk ⟨[], List.replicate 32768 [], 0⟩) [1, 2, 3]).2 =
      Inline.mk ⟨[], List.replicate 32768 [], 0⟩ := by
  have hful : (Inline.mk
      (⟨[], List.replicate 32768 [], 0⟩ : Pool (List Nat))).is_full 2 =
      true := by
    unfold Inline.is_full Pool.len
    simp only [List.length_replicate]
    decide
  have hpk : packId 2 [1, 2, 3] = none := by decide
  refine intern_error_frame id 0 (⟨[(0, 0)], [0], 0⟩ : Pool Nat) 1
    .PoolOverflow fromBytesLE 2
    (Inline.mk ⟨[], List.replicate 32768 [], 0⟩) [1, 2, 3]
    .PoolOverflow (by decide) ?_
  unfold inlineIntern
  rw [hpk, if_pos hful]

end Symtern
